import Mathlib

/-!
A verification development for the transformer demo repository
(tokenizer, attention forward pass, sampling loops, Lambda handlers).
Python source files are shallowly embedded as Lean definitions: strings
become `List Char`, torch tensors become rational-valued lists or index
functions, the float `exp` used by softmax is an explicit parameter, and
fallible constructors return `Except`.
-/

/-- Models Python regex class `\w` restricted to ASCII: letters, digits, underscore. -/
def isWordChar (c : Char) : Bool := c.isAlphanum || c == '_'

/-- Models Python regex class `\s` restricted to ASCII whitespace. -/
def isSpaceChar (c : Char) : Bool := c == ' ' || c == '\t' || c == '\n' || c == '\r'

/-- Emits the pending word-character run (if any) before the given tokens. -/
def flushTok (acc : List Char) (rest : List (List Char)) : List (List Char) :=
  if acc = [] then rest else acc.reverse :: rest

/-- Scanner for `re.findall(r'\b\w+\b|[^\w\s]', text)`: `acc` holds the
current run of word characters, reversed. -/
def tokenizeAux : List Char → List Char → List (List Char)
  | [], acc => flushTok acc []
  | c :: cs, acc =>
    if isWordChar c then tokenizeAux cs (c :: acc)
    else if isSpaceChar c then flushTok acc (tokenizeAux cs [])
    else flushTok acc ([c] :: tokenizeAux cs [])

/-- Embeds `re.findall(r'\b\w+\b|[^\w\s]', text)` from `tokenizer.py`:
maximal runs of word characters become tokens, any other non-space
character is a single-character token, whitespace is skipped. -/
def tokenizeChars (s : List Char) : List (List Char) := tokenizeAux s []

/-- Embeds `text.lower()` (ASCII model). -/
def lowerStr (s : List Char) : List Char := s.map Char.toLower

/-- Embeds `SimpleTokenizer._tokenize`: lowercase, then regex split. -/
def tokenizeText (s : List Char) : List (List Char) := tokenizeChars (lowerStr s)

/-- First-match lookup in an association list; models Python `dict.get`. -/
def lookupA {α β : Type} [DecidableEq α] : List (α × β) → α → Option β
  | [], _ => none
  | (k, v) :: rest, a => if k = a then some v else lookupA rest a

/-- Models Python `d[a] = b`: updates in place when the key exists
(dicts keep the original insertion position), else appends. -/
def dictSet {α β : Type} [DecidableEq α] : List (α × β) → α → β → List (α × β)
  | [], a, b => [(a, b)]
  | (k, v) :: rest, a, b => if k = a then (k, b) :: rest else (k, v) :: dictSet rest a b

def padStr : List Char := "<PAD>".toList
def unkStr : List Char := "<UNK>".toList
def bosStr : List Char := "<BOS>".toList
def eosStr : List Char := "<EOS>".toList

/-- The `special_tokens` dict from `SimpleTokenizer.__init__`. -/
def specialW : List (List Char × ℕ) := [(padStr, 0), (unkStr, 1), (bosStr, 2), (eosStr, 3)]

/-- The reverse special-token mapping installed by `SimpleTokenizer.__init__`. -/
def specialI : List (ℕ × List Char) := [(0, padStr), (1, unkStr), (2, bosStr), (3, eosStr)]

/-- Embeds tokenizer state: `vocab_size`, `word_to_idx`, `idx_to_word`. -/
structure SimpleTokenizer where
  vocab_size : ℕ
  word_to_idx : List (List Char × ℕ)
  idx_to_word : List (ℕ × List Char)
deriving DecidableEq

/-- Distinct elements of a list in first-occurrence order; models the key
order of `collections.Counter` built by iterating the word list. -/
def firstOccs : List (List Char) → List (List Char)
  | [] => []
  | x :: xs => x :: (firstOccs xs).filter (fun y => y ≠ x)

/-- Each distinct word paired with its frequency, in first-occurrence order;
models `Counter(all_words)`. -/
def countsOf (l : List (List Char)) : List (List Char × ℕ) :=
  (firstOccs l).map (fun w => (w, l.count w))

/-- Descending-by-count order used by `Counter.most_common`. -/
def countGe {α : Type} (a b : α × ℕ) : Prop := b.2 ≤ a.2

instance {α : Type} : DecidableRel (@countGe α) := fun a b => Nat.decLe b.2 a.2

instance {α : Type} : IsTotal (α × ℕ) countGe := ⟨fun a b => Nat.le_total b.2 a.2⟩

instance {α : Type} : IsTrans (α × ℕ) countGe := ⟨fun _ _ _ h1 h2 => le_trans h2 h1⟩

/-- Embeds `counter.most_common(vs - 4)`: a stable sort by descending count
(`heapq.nlargest` is stable, breaking ties by earlier position) truncated
to the requested length. -/
def topWords (vs : ℕ) (allWords : List (List Char)) : List (List Char × ℕ) :=
  (List.insertionSort countGe (countsOf allWords)).take (vs - 4)

/-- Sequential id assignment for the kept words: word `w` at offset `i`
receives id `n + i` in `word_to_idx`. -/
def assignW (n : ℕ) : List (List Char × ℕ) → List (List Char × ℕ)
  | [] => []
  | p :: ps => (p.1, n) :: assignW (n + 1) ps

/-- Sequential reverse assignment for the kept words in `idx_to_word`. -/
def assignI (n : ℕ) : List (List Char × ℕ) → List (ℕ × List Char)
  | [] => []
  | p :: ps => (n, p.1) :: assignI (n + 1) ps

/-- One iteration of the `for word, _ in words_and_frequencies` loop of
`build_vocab`: `idx = len(word_to_idx)`, then both dicts are updated. -/
def buildStep (st : List (List Char × ℕ) × List (ℕ × List Char)) (p : List Char × ℕ) :
    List (List Char × ℕ) × List (ℕ × List Char) :=
  (dictSet st.1 p.1 st.1.length, dictSet st.2 st.1.length p.1)

/-- All tokens of all texts, in order; models the `all_words` list of
`build_vocab`. -/
def allWordsOf (texts : List (List Char)) : List (List Char) :=
  (texts.map tokenizeText).flatten

/-- The `words_and_frequencies` list of `build_vocab`. -/
def keptWords (vs : ℕ) (texts : List (List Char)) : List (List Char × ℕ) :=
  topWords vs (allWordsOf texts)

/-- Embeds `SimpleTokenizer.build_vocab(texts)` on a fresh tokenizer with the
given `vocab_size`: tokenize all texts, count, keep the most common
`vocab_size - 4`, assign ids after the four reserved ones. -/
def SimpleTokenizer.build_vocab (vs : ℕ) (texts : List (List Char)) : SimpleTokenizer :=
  let st := (keptWords vs texts).foldl buildStep (specialW, specialI)
  ⟨vs, st.1, st.2⟩

/-- Embeds `SimpleTokenizer.encode`: tokenize, map through the vocabulary
with UNK (id 1) fallback, optionally wrap with BOS (2) / EOS (3). -/
def SimpleTokenizer.encode (tk : SimpleTokenizer) (text : List Char)
    (add_special_tokens : Bool) : List ℕ :=
  (if add_special_tokens then [2] else [])
    ++ (tokenizeText text).map (fun w => (lookupA tk.word_to_idx w).getD 1)
    ++ (if add_special_tokens then [3] else [])

/-- Single-space join, modelling `' '.join(tokens)`. -/
def spaceJoin (ts : List (List Char)) : List Char := List.intercalate [' '] ts

/-- Embeds `SimpleTokenizer.decode`: optionally drop PAD (0), BOS (2), EOS (3)
(UNK is kept), map ids back with `<UNK>` fallback, join with spaces. -/
def SimpleTokenizer.decode (tk : SimpleTokenizer) (ids : List ℕ)
    (skip_special_tokens : Bool) : List Char :=
  let kept := if skip_special_tokens then ids.filter (fun i => ¬(i = 0 ∨ i = 2 ∨ i = 3)) else ids
  spaceJoin (kept.map (fun i => (lookupA tk.idx_to_word i).getD unkStr))

/-- Decimal rendering of a natural number; models how `json.dump` turns the
integer keys of `idx_to_word` into JSON object keys. -/
def natToStr (n : ℕ) : List Char :=
  if _h : n < 10 then [Char.ofNat (48 + n)]
  else natToStr (n / 10) ++ [Char.ofNat (48 + n % 10)]
termination_by n
decreasing_by
  exact Nat.div_lt_self (by omega) (by norm_num)

/-- Decimal parsing; models `int(k)` applied to a JSON object key. -/
def strToNat (s : List Char) : ℕ := s.foldl (fun a c => a * 10 + (c.toNat - 48)) 0

/-- The on-disk record written by `SimpleTokenizer.save`: `vocab_size`,
`word_to_idx` (string keys survive JSON as-is), and `idx_to_word` whose
integer keys JSON stringifies. -/
structure SavedTokenizer where
  vocab_size : ℕ
  word_to_idx : List (List Char × ℕ)
  idx_to_word : List (List Char × List Char)

/-- Embeds `SimpleTokenizer.save`. -/
def SimpleTokenizer.save (tk : SimpleTokenizer) : SavedTokenizer :=
  ⟨tk.vocab_size, tk.word_to_idx, tk.idx_to_word.map (fun p => (natToStr p.1, p.2))⟩

/-- Embeds `SimpleTokenizer.load`: keys of `idx_to_word` converted back with `int`. -/
def SimpleTokenizer.load (d : SavedTokenizer) : SimpleTokenizer :=
  ⟨d.vocab_size, d.word_to_idx, d.idx_to_word.map (fun p => (strToNat p.1, p.2))⟩

/-!
Numeric layer. A torch float value that may be `-inf` is modelled as
`Option ℚ` with `none` standing for `-inf` (finite values exact rationals).
The float exponential is an explicit parameter `e : ℚ → ℚ` of every
definition that embeds a softmax, so that properties can be stated for any
exponential model (positive everywhere, or underflowing to 0 far below 0
as IEEE-754 single precision does).
-/

/-- IEEE comparison `x < y` on possibly `-inf` values (`none` is `-inf`). -/
def xlt : Option ℚ → Option ℚ → Prop
  | none, none => False
  | none, some _ => True
  | some _, none => False
  | some a, some b => a < b

instance : DecidableRel xlt := fun a b => by
  cases a <;> cases b <;> simp only [xlt] <;> infer_instance

/-- IEEE comparison `y ≤ x` (descending order used to sort for `torch.topk`). -/
def xge : Option ℚ → Option ℚ → Prop
  | _, none => True
  | none, some _ => False
  | some a, some b => b ≤ a

instance : DecidableRel xge := fun a b => by
  cases a <;> cases b <;> simp only [xge] <;> infer_instance

instance : IsTotal (Option ℚ) xge := by
  constructor
  intro a b
  cases a <;> cases b <;> simp [xge]
  exact le_total _ _

instance : IsTrans (Option ℚ) xge := by
  constructor
  intro a b c h1 h2
  cases a <;> cases b <;> cases c <;> simp_all [xge]
  exact le_trans h2 h1

/-- Maximum of a rational list (0 on the empty list, which no use site hits). -/
def listMax : List ℚ → ℚ
  | [] => 0
  | x :: xs => xs.foldl max x

/-- The finite (non `-inf`) values of an extended list. -/
def finVals (xs : List (Option ℚ)) : List ℚ := xs.filterMap id

/-- The unnormalized softmax weight of one entry: `exp(-inf) = 0`, finite
entries get `e` of their distance to the row maximum `m`. -/
def expWeight (e : ℚ → ℚ) (m : ℚ) : Option ℚ → ℚ
  | none => 0
  | some v => e (v - m)

/-- Embeds `torch.softmax` along the last dimension with exponential model `e`:
subtract the row maximum for stability (as torch does), exponentiate with
`exp(-inf) = 0`, and normalize. -/
def softmaxT (e : ℚ → ℚ) (xs : List (Option ℚ)) : List ℚ :=
  let ws := xs.map (expWeight e (listMax (finVals xs)))
  ws.map (fun w => w / ws.sum)

/-!
Attention. `ScaledDotProductAttention.forward` computes, for one batch item
and one head, `scores = q · kᵀ / sqrt(d_k)`, fills masked positions with
`-1e9`, and softmaxes along the key dimension. `SimpleTransformer.forward`
builds the mask from the token ids `x`: padding positions (`x[j] == 0`)
are masked, combined with the causal mask forbidding `j > i`. The per-head
projected queries/keys are arbitrary functions `q k : ℕ → ℕ → ℚ`, so any
layer, head and batch item of the deployed (eval-mode, identity-dropout)
model is an instance; `invSqrtDk` stands for the irrational `1/sqrt(d_k)`.
-/

/-- Embeds one entry of `torch.matmul(query, key.transpose(-2,-1)) / math.sqrt(d_k)`. -/
def rawScore (q k : ℕ → ℕ → ℚ) (d_k : ℕ) (invSqrtDk : ℚ) (i j : ℕ) : ℚ :=
  ((List.range d_k).map (fun t => q i t * k j t)).sum * invSqrtDk

/-- Embeds the combined mask of `SimpleTransformer.forward`: position `(i, j)`
is attendable iff token `j` is not PAD and `j ≤ i` (causal). -/
def combinedMask (x : List ℕ) (i j : ℕ) : Prop := x.getD j 0 ≠ 0 ∧ j ≤ i

instance (x : List ℕ) (i j : ℕ) : Decidable (combinedMask x i j) := by
  unfold combinedMask; infer_instance

/-- Embeds `scores.masked_fill(mask == 0, -1e9)`. -/
def maskedScores (q k : ℕ → ℕ → ℚ) (d_k : ℕ) (invSqrtDk : ℚ) (x : List ℕ) (i j : ℕ) : ℚ :=
  if combinedMask x i j then rawScore q k d_k invSqrtDk i j else -(10 ^ 9)

/-- Row `i` of the attention tensor returned by the forward pass (for the
batch item with token ids `x`, one fixed head): softmax of the masked
scores across the key dimension. -/
def attRow (e : ℚ → ℚ) (q k : ℕ → ℕ → ℚ) (d_k : ℕ) (invSqrtDk : ℚ) (x : List ℕ) (i : ℕ) :
    List ℚ :=
  softmaxT e (((List.range x.length).map (maskedScores q k d_k invSqrtDk x i)).map some)

/-- Attention weight from query position `i` to key position `j`. -/
def attWeight (e : ℚ → ℚ) (q k : ℕ → ℕ → ℚ) (d_k : ℕ) (invSqrtDk : ℚ) (x : List ℕ)
    (i j : ℕ) : ℚ :=
  (attRow e q k d_k invSqrtDk x i).getD j 0

/-!
Sampling pipelines. `lambda_handler` in `generate_text/main.py` and
`SimpleTransformer.generate` both loop: forward pass, last-position logits,
(handler only: UNK logit set to `-inf`), divide by temperature, top-k
filter, softmax, `torch.multinomial`, append. The model's last-position
logits are an abstract function `modelLast : List ℕ → List ℚ` (finite
reals), and `torch.multinomial` is an abstract `pick : ℕ → List ℚ → ℕ`
taking the step number and the probability vector.
-/

/-- Embeds `values, _ = torch.topk(x, k); values[-1]`: the k-th largest entry
(counting multiplicity, `-inf` below all finite values). -/
def kthLargest (xs : List (Option ℚ)) (top_k : ℕ) : Option ℚ :=
  (List.insertionSort xge xs).getD (top_k - 1) none

/-- Embeds `x[x < values[-1]] = -inf`: entries strictly below the k-th
largest are replaced by `-inf`. -/
def topkFilter (top_k : ℕ) (xs : List (Option ℚ)) : List (Option ℚ) :=
  let mv := kthLargest xs top_k
  xs.map (fun x => if xlt x mv then none else x)

/-- Embeds `next_token_logits / temperature` (`-inf` stays `-inf`). -/
def tempScaled (T : ℚ) (xs : List (Option ℚ)) : List (Option ℚ) :=
  xs.map (fun x => x.map (fun v => v / T))

/-- Shared tail of both sampling loops: divide by the temperature, apply
top-k filtering when `top_k > 0`, softmax. -/
def nextProbs (e : ℚ → ℚ) (T : ℚ) (top_k : ℕ) (xs : List (Option ℚ)) : List ℚ :=
  softmaxT e
    (if 0 < top_k then topkFilter top_k (tempScaled T xs) else tempScaled T xs)

/-- One iteration of the `lambda_handler` generation loop: the UNK logit
(id 1) is set to `-inf` before temperature, top-k and sampling. -/
def genTextStep (e : ℚ → ℚ) (modelLast : List ℕ → List ℚ) (pick : ℕ → List ℚ → ℕ)
    (T : ℚ) (top_k : ℕ) (n : ℕ) (ids : List ℕ) : ℕ :=
  pick n (nextProbs e T top_k (((modelLast ids).map some).set 1 none))

/-- Embeds the `for _ in range(max_tokens)` loop of `lambda_handler` in
`generate_text/main.py`: append one sampled token per iteration, no early
exit. -/
def genTextLoop (e : ℚ → ℚ) (modelLast : List ℕ → List ℚ) (pick : ℕ → List ℚ → ℕ)
    (T : ℚ) (top_k : ℕ) : ℕ → List ℕ → List ℕ
  | 0, ids => ids
  | fuel + 1, ids =>
    genTextLoop e modelLast pick T top_k fuel (ids ++ [genTextStep e modelLast pick T top_k fuel ids])

/-- One iteration of `SimpleTransformer.generate`: same pipeline but with no
UNK suppression. -/
def tfStep (e : ℚ → ℚ) (modelLast : List ℕ → List ℚ) (pick : ℕ → List ℚ → ℕ)
    (T : ℚ) (top_k : ℕ) (n : ℕ) (ids : List ℕ) : ℕ :=
  pick n (nextProbs e T top_k ((modelLast ids).map some))

/-- Embeds the loop of `SimpleTransformer.generate`: up to `max_length`
sampled tokens are appended; after appending, the loop breaks iff a
tokenizer was supplied (`eos = some _`) and the new token is its EOS id. -/
def tfGenerate (e : ℚ → ℚ) (modelLast : List ℕ → List ℚ) (pick : ℕ → List ℚ → ℕ)
    (T : ℚ) (top_k : ℕ) (eos : Option ℕ) : ℕ → List ℕ → List ℕ
  | 0, ids => ids
  | fuel + 1, ids =>
    let next := tfStep e modelLast pick T top_k fuel ids
    if eos = some next then ids ++ [next]
    else tfGenerate e modelLast pick T top_k eos fuel (ids ++ [next])

/-!
Lambda handler for attention visualization (`visualize_attention/main.py`).
Model loading, JSON body parsing and figure rendering interact with S3,
the JSON parser and matplotlib, so their outcomes are abstract parameters;
everything the handler itself computes (status codes, body shape, the
token list, the S3 URL) is embedded concretely. The rendered PNG bytes are
an explicit `img` parameter so that it is visible whether they reach the
response.
-/

/-- JSON values appearing in the handler's response bodies. -/
inductive JVal where
  | s (v : List Char)
  | arr (vs : List (List Char))
deriving DecidableEq

/-- An AWS Lambda proxy response: status code plus JSON body (an object,
modelled as a key-value list). -/
structure Resp where
  statusCode : ℕ
  body : List (List Char × JVal)
deriving DecidableEq

/-- The fields `lambda_handler` extracts from a parsed request body. -/
structure VizReq where
  text : List Char
  layer_idx : ℕ
  head_idx : Option ℕ

/-- The public URL built for the uploaded figure. -/
def urlOf (bucket fname : List Char) : List Char :=
  "https://".toList ++ bucket ++ ".s3.amazonaws.com/".toList ++ fname

/-- The token list computed by `visualize_attention`:
`[tokenizer.idx_to_word.get(idx, '<UNK>') for idx in input_ids]` (note that
BOS/EOS from `encode` are included). -/
def vizTokens (tk : SimpleTokenizer) (text : List Char) : List (List Char) :=
  (tk.encode text true).map (fun i => (lookupA tk.idx_to_word i).getD unkStr)

/-- Embeds the return value of `visualize_attention(text, layer_idx, head_idx)`:
the token list and the S3 URL of the uploaded PNG. The rendered image
bytes `img` are uploaded to S3 but do not flow into the return value. -/
def visualize_attention (tk : SimpleTokenizer) (bucket pfix uid : List Char)
    (_img : List ℕ) (text : List Char) : List (List Char) × List Char :=
  (vizTokens tk text, urlOf bucket (pfix ++ uid ++ ".png".toList))

/-- A JSON error body with a single `error` field. -/
def errBody (m : List Char) : List (List Char × JVal) := [("error".toList, JVal.s m)]

/-- Embeds `lambda_handler` of `visualize_attention/main.py`. `loaded` is
whether the process-global model/tokenizer are already populated,
`loadRes` the outcome of `load_model()`, `parseRes` the outcome of parsing
the request body, and `vizFail` the exception message when
`visualize_attention` raises (with traceback `tb`). Every path returns a
response. -/
def lambda_handler_viz (loaded : Bool) (loadRes : Except (List Char) Unit)
    (parseRes : Except (List Char) VizReq) (vizFail : Option (List Char)) (tb : List Char)
    (tk : SimpleTokenizer) (bucket pfix uid : List Char) (img : List ℕ) : Resp :=
  match (if loaded then Except.ok () else loadRes) with
  | .error m => ⟨500, errBody ("Failed to load model: ".toList ++ m)⟩
  | .ok _ =>
    match parseRes with
    | .error m => ⟨400, errBody ("Invalid request: ".toList ++ m)⟩
    | .ok req =>
      match vizFail with
      | some m =>
        ⟨500, ("error".toList, JVal.s ("Visualization failed: ".toList ++ m))
            :: [("traceback".toList, JVal.s tb)]⟩
      | none =>
        let r := visualize_attention tk bucket pfix uid img req.text
        ⟨200, [("tokens".toList, JVal.arr r.1), ("visualization_url".toList, JVal.s r.2)]⟩

/-- Python exception kinds raised by `MultiHeadAttention.__init__`. -/
inductive PyError where
  | zeroDivisionError
  | valueError
deriving DecidableEq

/-- Embeds `MultiHeadAttention.__init__`'s validation: `d_model % n_heads`
raises `ZeroDivisionError` in Python when `n_heads == 0`; otherwise a
nonzero remainder raises `ValueError("d_model must be divisible by n_heads")`. -/
def MultiHeadAttention_init (d_model n_heads : ℕ) : Except PyError Unit :=
  if n_heads = 0 then .error .zeroDivisionError
  else if d_model % n_heads ≠ 0 then .error .valueError
  else .ok ()

/-!
Concrete instances used to evaluate the embedded code at specific inputs.
-/

/-- An exponential model with IEEE-754 float32 underflow: single-precision
`exp` returns exactly 0 below roughly -104, in particular everywhere
below `-10^8`. -/
def eF : ℚ → ℚ := fun v => if v ≤ -(10 ^ 8) then 0 else 1

/-- A trivially positive exponential model. -/
def e1 : ℚ → ℚ := fun _ => 1

/-- Zero queries/keys. -/
def qZ : ℕ → ℕ → ℚ := fun _ _ => 0

/-- A model whose last-position logits put their maximum on the UNK id (1). -/
def m4 : List ℕ → List ℚ := fun _ => [0, 10, 0, 0]

/-- A model with uniform last-position logits. -/
def m1 : List ℕ → List ℚ := fun _ => [1, 1, 1, 1]

/-- A two-token model whose last-position logits give all probability mass
to the UNK id (1) after softmax under the underflow exponential. -/
def m2 : List ℕ → List ℚ := fun _ => [-(10 ^ 9), 10]

/-- Index of the first strictly positive entry. -/
def firstPosIdx : List ℚ → ℕ
  | [] => 0
  | p :: ps => if 0 < p then 0 else firstPosIdx ps + 1

/-- A sampler that picks the first positive-probability token, a valid
realization of `torch.multinomial`. -/
def pick1 : ℕ → List ℚ → ℕ := fun _ ps => firstPosIdx ps

/-- A sampler that always returns token 3. -/
def pick3 : ℕ → List ℚ → ℕ := fun _ _ => 3

/-- A small vocabulary built from the single text `"hi !"`. -/
def tkA : SimpleTokenizer := SimpleTokenizer.build_vocab 100 ["hi !".toList]

/-!
Generic helper lemmas.
-/

theorem lookupA_append_none {α β : Type} [DecidableEq α] (d d' : List (α × β)) (a : α)
    (h : lookupA d a = none) : lookupA (d ++ d') a = lookupA d' a := by
  induction d with
  | nil => rfl
  | cons p rest ih =>
    obtain ⟨k, v⟩ := p
    by_cases hk : k = a
    · simp [lookupA, hk] at h
    · simp only [lookupA, if_neg hk] at h
      simpa only [List.cons_append, lookupA, if_neg hk] using ih h

theorem lookupA_append_left {α β : Type} [DecidableEq α] (d d' : List (α × β)) (a : α) (b : β)
    (h : lookupA d a = some b) : lookupA (d ++ d') a = some b := by
  induction d with
  | nil => simp [lookupA] at h
  | cons p rest ih =>
    obtain ⟨k, v⟩ := p
    by_cases hk : k = a
    · simp_all [lookupA]
    · simp only [lookupA, if_neg hk] at h
      simp only [List.cons_append, lookupA, if_neg hk]
      exact ih h

theorem lookupA_eq_none_iff {α β : Type} [DecidableEq α] (d : List (α × β)) (a : α) :
    lookupA d a = none ↔ ∀ p ∈ d, p.1 ≠ a := by
  induction d with
  | nil => simp [lookupA]
  | cons p rest ih =>
    obtain ⟨k, v⟩ := p
    by_cases hk : k = a <;> simp [lookupA, hk, ih]

theorem dictSet_notmem {α β : Type} [DecidableEq α] (d : List (α × β)) (a : α) (b : β)
    (h : lookupA d a = none) : dictSet d a b = d ++ [(a, b)] := by
  induction d with
  | nil => rfl
  | cons p rest ih =>
    obtain ⟨k, v⟩ := p
    by_cases hk : k = a
    · simp [lookupA, hk] at h
    · simp only [lookupA, if_neg hk] at h
      simp [dictSet, hk, ih h]

theorem char_digit_toNat (d : ℕ) (hd : d < 10) : (Char.ofNat (48 + d)).toNat = 48 + d := by
  interval_cases d <;> decide

theorem strToNat_natToStr (n : ℕ) : strToNat (natToStr n) = n := by
  induction n using Nat.strong_induction_on with
  | _ n ih =>
    rw [natToStr]
    by_cases h : n < 10
    · simp only [h, dite_true, strToNat, List.foldl_cons, List.foldl_nil]
      rw [char_digit_toNat n h]
      omega
    · simp only [h, dite_false]
      have hdiv : n / 10 < n := Nat.div_lt_self (by omega) (by norm_num)
      have hrec := ih (n / 10) hdiv
      simp only [strToNat] at hrec ⊢
      rw [List.foldl_append, hrec, List.foldl_cons, List.foldl_nil,
        char_digit_toNat (n % 10) (by omega)]
      omega

/-- C10: saving the vocabulary and loading it back restores the same
`vocab_size`, `word_to_idx` and `idx_to_word`, and therefore `encode` and
`decode` behave identically before and after the persistence round-trip. -/
theorem save_load_roundtrip (tk : SimpleTokenizer) :
    SimpleTokenizer.load tk.save = tk
    ∧ (∀ t b, (SimpleTokenizer.load tk.save).encode t b = tk.encode t b)
    ∧ (∀ ids b, (SimpleTokenizer.load tk.save).decode ids b = tk.decode ids b) := by
  have h : SimpleTokenizer.load tk.save = tk := by
    cases tk with
    | mk vs w2i i2w =>
      simp only [SimpleTokenizer.save, SimpleTokenizer.load, List.map_map,
        SimpleTokenizer.mk.injEq]
      refine ⟨trivial, trivial, ?_⟩
      have hcong : ∀ p ∈ i2w,
          ((fun p : List Char × List Char => (strToNat p.1, p.2))
            ∘ fun p : ℕ × List Char => (natToStr p.1, p.2)) p = id p := by
        intro p _
        simp [Function.comp, strToNat_natToStr]
      rw [List.map_congr_left hcong, List.map_id]
  exact ⟨h, fun t b => by rw [h], fun ids b => by rw [h]⟩

/-- C9 counterexample: at `d_model = 0`, `n_heads = 0` the mathematical
remainder `0 % 0` is 0, so the claim asserts construction does not raise,
but `MultiHeadAttention.__init__` evaluates `0 % 0` in Python and raises
`ZeroDivisionError`. -/
theorem mha_init_zero_heads_raises :
    0 % 0 = 0 ∧ MultiHeadAttention_init 0 0 = .error .zeroDivisionError :=
  ⟨rfl, rfl⟩

/-- C9 (amended): when `n_heads > 0`, construction succeeds iff `n_heads`
divides `d_model` (raising `ValueError` otherwise); when `n_heads = 0`,
construction always raises (`ZeroDivisionError` from `d_model % n_heads`). -/
theorem mha_init_spec (d_model n_heads : ℕ) :
    (0 < n_heads →
      (MultiHeadAttention_init d_model n_heads = .ok () ↔ d_model % n_heads = 0))
    ∧ (n_heads = 0 → MultiHeadAttention_init d_model n_heads = .error .zeroDivisionError) := by
  unfold MultiHeadAttention_init
  refine ⟨fun h => ?_, fun h => by simp [h]⟩
  rw [if_neg (by omega)]
  by_cases h2 : d_model % n_heads = 0 <;> simp [h2]

/-- C9 witness: the deployed configuration `d_model = 256`, `n_heads = 8`
constructs successfully. -/
theorem mha_init_spec_witness : MultiHeadAttention_init 256 8 = .ok () :=
  ((mha_init_spec 256 8).1 (by norm_num)).mpr (by norm_num)

/-- C7: the visualization handler always returns a status/body response with
status 200, 400 or 500; 400 exactly when the body failed to parse (after a
successful or skipped model load), an `error` JSON field on every failure,
and the tokens plus URL body on success. -/
theorem handler_error_boundary (loaded : Bool) (loadRes : Except (List Char) Unit)
    (parseRes : Except (List Char) VizReq) (vizFail : Option (List Char)) (tb : List Char)
    (tk : SimpleTokenizer) (bucket pfix uid : List Char) (img : List ℕ) :
    (((lambda_handler_viz loaded loadRes parseRes vizFail tb tk bucket pfix uid img).statusCode = 200
      ∨ (lambda_handler_viz loaded loadRes parseRes vizFail tb tk bucket pfix uid img).statusCode = 400)
      ∨ (lambda_handler_viz loaded loadRes parseRes vizFail tb tk bucket pfix uid img).statusCode = 500)
    ∧ ((lambda_handler_viz loaded loadRes parseRes vizFail tb tk bucket pfix uid img).statusCode = 400
        ↔ (loaded = true ∨ loadRes = .ok ()) ∧ ∃ m, parseRes = .error m)
    ∧ ((lambda_handler_viz loaded loadRes parseRes vizFail tb tk bucket pfix uid img).statusCode ≠ 200
        → ∃ m,
          lookupA (lambda_handler_viz loaded loadRes parseRes vizFail tb tk bucket pfix uid img).body
            "error".toList = some (JVal.s m))
    ∧ ((lambda_handler_viz loaded loadRes parseRes vizFail tb tk bucket pfix uid img).statusCode = 200
        → ∃ req, parseRes = .ok req
          ∧ (lambda_handler_viz loaded loadRes parseRes vizFail tb tk bucket pfix uid img).body
            = [("tokens".toList, JVal.arr (vizTokens tk req.text)),
               ("visualization_url".toList,
                JVal.s (urlOf bucket (pfix ++ uid ++ ".png".toList)))]) := by
  cases loaded <;> rcases loadRes with m | u <;> rcases parseRes with m2 | req <;>
    rcases vizFail with _ | m3 <;>
    simp [lambda_handler_viz, errBody, visualize_attention, lookupA]

/-- C7 witness: a malformed body (with the model already loaded) yields the
400 response with a JSON `error` field. -/
theorem handler_error_boundary_witness :
    ∃ m,
      lookupA (lambda_handler_viz true (.ok ()) (.error "bad".toList) none [] tkA
        "b".toList "p/".toList "u".toList []).body "error".toList = some (JVal.s m) :=
  (handler_error_boundary true (.ok ()) (.error "bad".toList) none [] tkA
    "b".toList "p/".toList "u".toList []).2.2.1 (by decide)

/-- C6 evaluation at the failing input: for a successful visualization
request, the handler's JSON body holds the token list and an S3
`visualization_url`; the rendered PNG bytes do not flow into the response
(different images give identical bodies) and there is no base64 image
field in the body. -/
theorem viz_response_is_url_not_image :
    lambda_handler_viz true (.ok ()) (.ok ⟨"hi".toList, 0, none⟩) none [] tkA
        "b".toList "p/".toList "u".toList [7]
      = ⟨200, [("tokens".toList, JVal.arr [bosStr, "hi".toList, eosStr]),
               ("visualization_url".toList,
                JVal.s "https://b.s3.amazonaws.com/p/u.png".toList)]⟩
    ∧ lambda_handler_viz true (.ok ()) (.ok ⟨"hi".toList, 0, none⟩) none [] tkA
        "b".toList "p/".toList "u".toList [7]
      = lambda_handler_viz true (.ok ()) (.ok ⟨"hi".toList, 0, none⟩) none [] tkA
        "b".toList "p/".toList "u".toList [9]
    ∧ lookupA (lambda_handler_viz true (.ok ()) (.ok ⟨"hi".toList, 0, none⟩) none [] tkA
        "b".toList "p/".toList "u".toList [7]).body "attention_image".toList = none := by
  refine ⟨by decide, rfl, by decide⟩


/-!
Generation-loop lemmas for the token budget (C4) and for UNK suppression (C5).
-/

theorem tfGenerate_length_le (e : ℚ → ℚ) (modelLast : List ℕ → List ℚ)
    (pick : ℕ → List ℚ → ℕ) (T : ℚ) (top_k : ℕ) (eos : Option ℕ) :
    ∀ (fuel : ℕ) (ids : List ℕ),
      (tfGenerate e modelLast pick T top_k eos fuel ids).length ≤ ids.length + fuel := by
  intro fuel
  induction fuel with
  | zero => intro ids; simp [tfGenerate]
  | succ fuel ih =>
    intro ids
    rw [tfGenerate]
    by_cases hb : eos = some (tfStep e modelLast pick T top_k fuel ids)
    · rw [if_pos hb]
      simp only [List.length_append, List.length_cons, List.length_nil]
      omega
    · rw [if_neg hb]
      have := ih (ids ++ [tfStep e modelLast pick T top_k fuel ids])
      simp only [List.length_append, List.length_cons, List.length_nil] at this
      omega

theorem tfGenerate_early_stop (e : ℚ → ℚ) (modelLast : List ℕ → List ℚ)
    (pick : ℕ → List ℚ → ℕ) (T : ℚ) (top_k : ℕ) (eos : Option ℕ) :
    ∀ (fuel : ℕ) (ids : List ℕ),
      (tfGenerate e modelLast pick T top_k eos fuel ids).length < ids.length + fuel →
      ∃ ev, eos = some ev
        ∧ (tfGenerate e modelLast pick T top_k eos fuel ids).getLast? = some ev := by
  intro fuel
  induction fuel with
  | zero =>
    intro ids h
    rw [tfGenerate] at h
    omega
  | succ fuel ih =>
    intro ids h
    rw [tfGenerate] at h ⊢
    by_cases hb : eos = some (tfStep e modelLast pick T top_k fuel ids)
    · rw [if_pos hb] at h ⊢
      exact ⟨tfStep e modelLast pick T top_k fuel ids, hb, List.getLast?_concat _⟩
    · rw [if_neg hb] at h ⊢
      apply ih (ids ++ [tfStep e modelLast pick T top_k fuel ids])
      simp only [List.length_append, List.length_cons, List.length_nil]
      omega

theorem genTextLoop_length (e : ℚ → ℚ) (modelLast : List ℕ → List ℚ)
    (pick : ℕ → List ℚ → ℕ) (T : ℚ) (top_k : ℕ) :
    ∀ (fuel : ℕ) (ids : List ℕ),
      (genTextLoop e modelLast pick T top_k fuel ids).length = ids.length + fuel := by
  intro fuel
  induction fuel with
  | zero => intro ids; simp [genTextLoop]
  | succ fuel ih =>
    intro ids
    rw [genTextLoop]
    rw [ih (ids ++ [genTextStep e modelLast pick T top_k fuel ids])]
    simp only [List.length_append, List.length_cons, List.length_nil]
    omega

/-- C4: `SimpleTransformer.generate` appends at most `max_length` tokens to
the prompt, and it stops before exhausting the budget only when a
tokenizer is supplied (`eos = some _`) and the final sampled token is its
EOS id; the `lambda_handler` loop in `generate_text/main.py` always
appends exactly `max_tokens` tokens (it never stops early). -/
theorem generation_respects_budget (e : ℚ → ℚ) (modelLast : List ℕ → List ℚ)
    (pick : ℕ → List ℚ → ℕ) (T : ℚ) (top_k : ℕ) (eos : Option ℕ) (fuel : ℕ) (ids : List ℕ) :
    (tfGenerate e modelLast pick T top_k eos fuel ids).length ≤ ids.length + fuel
    ∧ ((tfGenerate e modelLast pick T top_k eos fuel ids).length < ids.length + fuel →
        ∃ ev, eos = some ev
          ∧ (tfGenerate e modelLast pick T top_k eos fuel ids).getLast? = some ev)
    ∧ (genTextLoop e modelLast pick T top_k fuel ids).length = ids.length + fuel :=
  ⟨tfGenerate_length_le e modelLast pick T top_k eos fuel ids,
   tfGenerate_early_stop e modelLast pick T top_k eos fuel ids,
   genTextLoop_length e modelLast pick T top_k fuel ids⟩

/-- C4 witness: with a sampler that immediately emits the EOS id 3, the
generate loop stops after one appended token, strictly under the budget
of 5, and the last token is the EOS id. -/
theorem generation_respects_budget_witness :
    ∃ ev, (some 3 : Option ℕ) = some ev
      ∧ (tfGenerate e1 m1 pick3 1 0 (some 3) 5 [2]).getLast? = some ev :=
  (generation_respects_budget e1 m1 pick3 1 0 (some 3) 5 [2]).2.1 (by decide)

/-!
Softmax lemmas (maximum, normalization) used for the attention claims.
-/

theorem le_foldl_max (l : List ℚ) : ∀ a : ℚ, a ≤ l.foldl max a := by
  induction l with
  | nil => intro a; simp
  | cons x xs ih =>
    intro a
    simp only [List.foldl_cons]
    exact le_trans (le_max_left a x) (ih (max a x))

theorem mem_le_foldl_max (l : List ℚ) (x : ℚ) (hx : x ∈ l) : ∀ a : ℚ, x ≤ l.foldl max a := by
  induction l with
  | nil => cases hx
  | cons y ys ih =>
    intro a
    simp only [List.foldl_cons]
    rcases List.mem_cons.1 hx with h | h
    · subst h
      exact le_trans (le_max_right a x) (le_foldl_max ys (max a x))
    · exact ih h (max a y)

theorem foldl_max_mem (l : List ℚ) : ∀ a : ℚ, l.foldl max a = a ∨ l.foldl max a ∈ l := by
  induction l with
  | nil => intro a; left; rfl
  | cons x xs ih =>
    intro a
    simp only [List.foldl_cons]
    rcases ih (max a x) with h | h
    · rcases max_choice a x with hm | hm
      · left; rw [h, hm]
      · right; rw [h, hm]; exact List.mem_cons_self x xs
    · right; exact List.mem_cons_of_mem x h

theorem listMax_mem (l : List ℚ) (h : l ≠ []) : listMax l ∈ l := by
  cases l with
  | nil => exact absurd rfl h
  | cons x xs =>
    rcases foldl_max_mem xs x with h1 | h1
    · rw [listMax, h1]; exact List.mem_cons_self x xs
    · rw [listMax]; exact List.mem_cons_of_mem x h1

theorem le_listMax (l : List ℚ) (x : ℚ) (hx : x ∈ l) : x ≤ listMax l := by
  cases l with
  | nil => cases hx
  | cons y ys =>
    rcases List.mem_cons.1 hx with h | h
    · subst h; exact le_foldl_max ys x
    · exact mem_le_foldl_max ys x h y

theorem sum_map_div (l : List ℚ) (z : ℚ) : (l.map (fun w => w / z)).sum = l.sum / z := by
  induction l with
  | nil => simp
  | cons x xs ih => simp [ih, add_div]

theorem le_sum_of_mem (l : List ℚ) : (∀ y ∈ l, 0 ≤ y) → ∀ x ∈ l, x ≤ l.sum := by
  induction l with
  | nil => intro _ x hx; cases hx
  | cons y ys ih =>
    intro hnn x hx
    have hys : 0 ≤ ys.sum := List.sum_nonneg (fun z hz => hnn z (List.mem_cons_of_mem _ hz))
    have hy : 0 ≤ y := hnn y (List.mem_cons_self _ _)
    rcases List.mem_cons.1 hx with h | h
    · subst h
      simp only [List.sum_cons]
      linarith
    · have := ih (fun z hz => hnn z (List.mem_cons_of_mem _ hz)) x h
      simp only [List.sum_cons]
      linarith

theorem finVals_map_some (l : List ℚ) : finVals (l.map some) = l := by
  induction l with
  | nil => rfl
  | cons x xs ih =>
    simp only [finVals, List.map_cons, List.filterMap_cons, id_eq] at ih ⊢
    rw [ih]

theorem softmaxT_map_some (e : ℚ → ℚ) (l : List ℚ) :
    softmaxT e (l.map some)
      = (l.map (fun v => e (v - listMax l))).map
          (fun w => w / (l.map (fun v => e (v - listMax l))).sum) := by
  simp only [softmaxT, finVals_map_some, List.map_map]
  rfl

/-- C3: for any exponential model that is nonnegative with `e 0 = 1` (true of
the float `exp`), every attention row produced by the forward pass on a
nonempty input is nonnegative and sums to exactly 1 across the key
dimension. The queries/keys `q`, `k` are arbitrary, so this covers every
batch item, layer and head of the eval-mode model. -/
theorem attention_rows_sum_one (e : ℚ → ℚ) (q k : ℕ → ℕ → ℚ) (d_k : ℕ) (invSqrtDk : ℚ)
    (x : List ℕ) (i : ℕ) (he0 : e 0 = 1) (hnn : ∀ v, 0 ≤ e v) (hx : x ≠ []) :
    (∀ j, 0 ≤ (attRow e q k d_k invSqrtDk x i).getD j 0)
    ∧ (attRow e q k d_k invSqrtDk x i).sum = 1 := by
  have hrowrw : attRow e q k d_k invSqrtDk x i
      = softmaxT e (((List.range x.length).map (maskedScores q k d_k invSqrtDk x i)).map some) :=
    rfl
  set row := (List.range x.length).map (maskedScores q k d_k invSqrtDk x i) with hrowdef
  have hne : row ≠ [] := by
    intro hc
    apply hx
    have hlen := congrArg List.length hc
    simp only [hrowdef, List.length_map, List.length_range, List.length_nil] at hlen
    exact List.length_eq_zero.1 hlen
  set m := listMax row with hmdef
  set ws := row.map (fun v => e (v - m)) with hwsdef
  have hws_nn : ∀ w ∈ ws, 0 ≤ w := by
    intro w hw
    rcases List.mem_map.1 hw with ⟨v, _, rfl⟩
    exact hnn _
  have hone_mem : (1 : ℚ) ∈ ws := by
    have hm := listMax_mem row hne
    have : e (m - m) ∈ ws := List.mem_map_of_mem (fun v => e (v - m)) hm
    rwa [sub_self, he0] at this
  have hZ1 : (1 : ℚ) ≤ ws.sum := le_sum_of_mem ws hws_nn 1 hone_mem
  have hZpos : (0 : ℚ) < ws.sum := lt_of_lt_of_le one_pos hZ1
  have hsm : attRow e q k d_k invSqrtDk x i = ws.map (fun w => w / ws.sum) := by
    rw [hrowrw, softmaxT_map_some]
  constructor
  · intro j
    rw [hsm]
    by_cases hj : j < (ws.map (fun w => w / ws.sum)).length
    · rw [List.getD_eq_getElem _ _ hj, List.getElem_map]
      exact div_nonneg (hws_nn _ (List.getElem_mem _)) hZpos.le
    · rw [List.getD_eq_default _ _ (le_of_not_lt hj)]
  · rw [hsm, sum_map_div, div_self (ne_of_gt hZpos)]

/-- C3 witness: on the single-token input `[5]` with the constant
exponential model, the attention row sums to 1. -/
theorem attention_rows_sum_one_witness : (attRow e1 qZ qZ 0 1 [5] 0).sum = 1 :=
  (attention_rows_sum_one e1 qZ qZ 0 1 [5] 0 rfl (fun _ => by norm_num [e1])
    (by simp)).2

/-- C2 counterexample: the code masks with `-1e9`, not `-inf`, so a fully
masked row (here: query position 0 whose own token is PAD, combined with
the causal mask) softmaxes to uniform weights. Under the float-underflow
exponential model `eF` (nonnegative, `eF 0 = 1`, exactly 0 below `-1e8`),
on input `[0, 5]` the attention weight from position 0 to the future
position 1 is 1/2, not 0. -/
theorem causal_weight_not_zero : attWeight eF qZ qZ 1 1 [0, 5] 0 1 = 1 / 2 := by
  have hrow : (List.range ([0, 5] : List ℕ).length).map (maskedScores qZ qZ 1 1 [0, 5] 0)
      = [-(10 ^ 9), -(10 ^ 9)] := by
    have h2 : List.range ([0, 5] : List ℕ).length = [0, 1] := by decide
    rw [h2]
    simp [maskedScores, combinedMask]
  have hatt : attRow eF qZ qZ 1 1 [0, 5] 0
      = softmaxT eF ((([-(10 ^ 9), -(10 ^ 9)] : List ℚ)).map some) := by
    rw [attRow, hrow]
  rw [attWeight, hatt, softmaxT_map_some]
  have hmax : listMax [-(10 ^ 9), -(10 ^ 9)] = -(10 ^ 9) := by
    simp [listMax]
  rw [hmax]
  norm_num [eF]

/-- C2 (amended): whenever the query row is not fully masked (some position
`j0 ≤ i` holds a non-PAD token) and the unmasked scores are bounded by
`1e8` in magnitude, any exponential model with float32 underflow
(`e v = 0` for `v ≤ -1e8`) gives attention weight exactly 0 from position
`i` to any position `j > i`. -/
theorem causal_mask_zero (e : ℚ → ℚ) (q k : ℕ → ℕ → ℚ) (d_k : ℕ) (invSqrtDk : ℚ)
    (x : List ℕ) (i j : ℕ)
    (hund : ∀ v : ℚ, v ≤ -(10 ^ 8) → e v = 0)
    (hbl : ∀ a b, -(10 ^ 8) ≤ rawScore q k d_k invSqrtDk a b)
    (hrow : ∃ j0, j0 ≤ i ∧ j0 < x.length ∧ x.getD j0 0 ≠ 0)
    (hij : i < j) :
    attWeight e q k d_k invSqrtDk x i j = 0 := by
  obtain ⟨j0, hj0i, hj0len, hj0pad⟩ := hrow
  have hrowrw : attRow e q k d_k invSqrtDk x i
      = softmaxT e (((List.range x.length).map (maskedScores q k d_k invSqrtDk x i)).map some) :=
    rfl
  set row := (List.range x.length).map (maskedScores q k d_k invSqrtDk x i) with hrowdef
  set m := listMax row with hmdef
  set ws := row.map (fun v => e (v - m)) with hwsdef
  have hsm : attRow e q k d_k invSqrtDk x i = ws.map (fun w => w / ws.sum) := by
    rw [hrowrw, softmaxT_map_some]
  have hrowlen : row.length = x.length := by
    simp [hrowdef]
  by_cases hj : j < x.length
  · -- the masked entry is `-1e9`, far enough below the row maximum
    have hj' : j < row.length := by omega
    have hrow_j : row[j] = -(10 ^ 9) := by
      simp only [hrowdef, List.getElem_map, List.getElem_range]
      rw [maskedScores, if_neg]
      intro hcm
      exact absurd hcm.2 (by omega)
    have hj0' : j0 < row.length := by omega
    have hrow_j0 : row[j0] = rawScore q k d_k invSqrtDk i j0 := by
      simp only [hrowdef, List.getElem_map, List.getElem_range]
      rw [maskedScores, if_pos ⟨hj0pad, hj0i⟩]
    have hm_lb : -(10 ^ 8) ≤ m := by
      have h1 : row[j0] ∈ row := List.getElem_mem _
      have h2 := le_listMax row _ h1
      rw [hrow_j0] at h2
      exact le_trans (hbl i j0) h2
    have hwj : j < ws.length := by
      simp only [hwsdef, List.length_map]; omega
    have hws_j : ws[j] = 0 := by
      simp only [hwsdef, List.getElem_map]
      rw [hrow_j]
      apply hund
      have : -(10 ^ 9) - m ≤ -(10 ^ 9) + 10 ^ 8 := by linarith
      have h2 : (-(10 ^ 9) + 10 ^ 8 : ℚ) ≤ -(10 ^ 8) := by norm_num
      linarith
    rw [attWeight, hsm]
    have hjlen : j < (ws.map (fun w => w / ws.sum)).length := by
      simp only [List.length_map]; omega
    rw [List.getD_eq_getElem _ _ hjlen, List.getElem_map, hws_j, zero_div]
  · -- out of range: the row has length `x.length`
    rw [attWeight, hsm, List.getD_eq_default]
    simp only [List.length_map, hwsdef]
    omega

/-- C2 witness for the amended statement: zero scores, input `[5, 7]`
(position 0 unmasked), float-underflow model `eF`: the weight from
position 0 to position 1 is exactly 0. -/
theorem causal_mask_zero_witness : attWeight eF qZ qZ 0 1 [5, 7] 0 1 = 0 :=
  causal_mask_zero eF qZ qZ 0 1 [5, 7] 0 1
    (fun v hv => by simp [eF, hv])
    (fun a b => by norm_num [rawScore])
    ⟨0, le_refl 0, by norm_num, by norm_num⟩
    (by norm_num)

/-- The float-underflow exponential model `eF` is a legitimate instance of
every hypothesis used about exponential models: nonnegative, `eF 0 = 1`
and underflowing to exactly 0 below `-1e8`. -/
theorem eF_is_underflow_model :
    (∀ v, 0 ≤ eF v) ∧ eF 0 = 1 ∧ (∀ v : ℚ, v ≤ -(10 ^ 8) → eF v = 0) := by
  refine ⟨fun v => ?_, by norm_num [eF], fun v hv => by simp [eF, hv]⟩
  by_cases h : v ≤ -(10 ^ 8) <;> simp [eF, h]

/-!
Sampling-pipeline lemmas for UNK suppression (C5).
-/

theorem firstPosIdx_spec (l : List ℚ) :
    (∃ i, i < l.length ∧ 0 < l.getD i 0) → 0 < l.getD (firstPosIdx l) 0 := by
  induction l with
  | nil =>
    rintro ⟨i, hi, _⟩
    simp at hi
  | cons p ps ih =>
    rintro ⟨i, hi, hpos⟩
    by_cases hp : 0 < p
    · rw [firstPosIdx, if_pos hp, List.getD_cons_zero]
      exact hp
    · rw [firstPosIdx, if_neg hp, List.getD_cons_succ]
      apply ih
      rcases i with _ | i'
      · exact absurd hpos (by simpa using hp)
      · exact ⟨i', by simpa using hi, by simpa using hpos⟩

theorem pick1_valid (n : ℕ) (ps : List ℚ) :
    (∃ i, i < ps.length ∧ 0 < ps.getD i 0) → 0 < ps.getD (pick1 n ps) 0 :=
  firstPosIdx_spec ps

theorem softmaxT_length (e : ℚ → ℚ) (xs : List (Option ℚ)) :
    (softmaxT e xs).length = xs.length := by
  simp [softmaxT]

theorem softmaxT_getD (e : ℚ → ℚ) (xs : List (Option ℚ)) (n : ℕ) (h : n < xs.length) :
    (softmaxT e xs).getD n 0
      = expWeight e (listMax (finVals xs)) (xs[n])
        / (xs.map (expWeight e (listMax (finVals xs)))).sum := by
  have hn : n < (softmaxT e xs).length := by rw [softmaxT_length]; exact h
  rw [List.getD_eq_getElem _ _ hn]
  simp [softmaxT, List.getElem_map]

theorem softmaxT_pos_at (e : ℚ → ℚ) (he0 : 0 < e 0) (henn : ∀ v, 0 ≤ e v)
    (xf : List (Option ℚ)) (jst : ℕ)
    (hj : jst < xf.length) (hm : xf[jst] = some (listMax (finVals xf))) :
    jst < (softmaxT e xf).length ∧ 0 < (softmaxT e xf).getD jst 0 := by
  have hlen : jst < (softmaxT e xf).length := by rw [softmaxT_length]; exact hj
  refine ⟨hlen, ?_⟩
  rw [softmaxT_getD e xf jst hj, hm]
  have hwe : expWeight e (listMax (finVals xf)) (some (listMax (finVals xf))) = e 0 := by
    simp [expWeight]
  rw [hwe]
  have hnn : ∀ w ∈ xf.map (expWeight e (listMax (finVals xf))), 0 ≤ w := by
    intro w hw
    rcases List.mem_map.1 hw with ⟨v, _, rfl⟩
    cases v with
    | none => simp [expWeight]
    | some u => exact henn _
  have hmem : e 0 ∈ xf.map (expWeight e (listMax (finVals xf))) := by
    have := List.getElem_mem (l := xf.map (expWeight e (listMax (finVals xf)))) (n := jst)
      (by rw [List.length_map]; exact hj)
    rwa [List.getElem_map, hm, hwe] at this
  have hZ : e 0 ≤ (xf.map (expWeight e (listMax (finVals xf)))).sum :=
    le_sum_of_mem _ hnn _ hmem
  exact div_pos he0 (lt_of_lt_of_le he0 hZ)

theorem finVals_mem_of_getElem (xs : List (Option ℚ)) (n : ℕ) (h : n < xs.length) (v : ℚ)
    (hv : xs[n] = some v) : v ∈ finVals xs := by
  apply List.mem_filterMap.2
  exact ⟨some v, by rw [← hv]; exact List.getElem_mem h, rfl⟩

theorem finVals_topkFilter_subset (top_k : ℕ) (xt : List (Option ℚ)) (v : ℚ)
    (hv : v ∈ finVals (topkFilter top_k xt)) : v ∈ finVals xt := by
  rcases List.mem_filterMap.1 hv with ⟨a, ha, haeq⟩
  rcases List.mem_map.1 ha with ⟨b, hb, hbeq⟩
  apply List.mem_filterMap.2
  refine ⟨b, hb, ?_⟩
  by_cases hx : xlt b (kthLargest xt top_k)
  · rw [if_pos hx] at hbeq
    rw [← hbeq] at haeq
    cases haeq
  · rw [if_neg hx] at hbeq
    rw [hbeq, haeq]

theorem not_xlt_max_kthLargest (xt : List (Option ℚ)) (top_k : ℕ) (m0 : ℚ)
    (hmax : ∀ w, w ∈ finVals xt → w ≤ m0) :
    ¬ xlt (some m0) (kthLargest xt top_k) := by
  rw [kthLargest]
  by_cases hk : top_k - 1 < (List.insertionSort xge xt).length
  · rw [List.getD_eq_getElem _ _ hk]
    have hmem : (List.insertionSort xge xt)[top_k - 1] ∈ xt :=
      (List.perm_insertionSort xge xt).subset (List.getElem_mem hk)
    cases hmv : (List.insertionSort xge xt)[top_k - 1] with
    | none => simp [xlt]
    | some w =>
      rw [hmv] at hmem
      rcases List.getElem_of_mem hmem with ⟨n, hn, hne⟩
      have hw : w ∈ finVals xt := finVals_mem_of_getElem xt n hn w hne
      simpa [xlt] using not_lt.2 (hmax w hw)
  · rw [List.getD_eq_default _ _ (le_of_not_lt hk)]
    simp [xlt]

theorem tempScaled_length (T : ℚ) (xs : List (Option ℚ)) :
    (tempScaled T xs).length = xs.length := by
  simp [tempScaled]

theorem topkFilter_length (top_k : ℕ) (xs : List (Option ℚ)) :
    (topkFilter top_k xs).length = xs.length := by
  simp [topkFilter]

theorem nextProbs_unk_zero (e : ℚ → ℚ) (T : ℚ) (top_k : ℕ) (l : List ℚ)
    (h1 : 1 < l.length) :
    (nextProbs e T top_k ((l.map some).set 1 none)).getD 1 0 = 0 := by
  have h1s : 1 < ((l.map some).set 1 none).length := by
    simp only [List.length_set, List.length_map]
    omega
  have h1t : 1 < (tempScaled T ((l.map some).set 1 none)).length := by
    rw [tempScaled_length]; exact h1s
  have hxt1 : (tempScaled T ((l.map some).set 1 none))[1] = none := by
    simp only [tempScaled, List.getElem_map, List.getElem_set_self h1s]
    rfl
  rw [nextProbs]
  by_cases hk : 0 < top_k
  · rw [if_pos hk]
    have h1f : 1 < (topkFilter top_k (tempScaled T ((l.map some).set 1 none))).length := by
      rw [topkFilter_length]; exact h1t
    have hxf1 : (topkFilter top_k (tempScaled T ((l.map some).set 1 none)))[1] = none := by
      simp only [topkFilter, List.getElem_map, hxt1]
      exact ite_self none
    rw [softmaxT_getD _ _ _ (by rw [topkFilter_length]; exact h1t), hxf1]
    simp [expWeight]
  · rw [if_neg hk]
    rw [softmaxT_getD _ _ _ h1t, hxt1]
    simp [expWeight]

theorem nextProbs_exists_pos (e : ℚ → ℚ) (T : ℚ) (top_k : ℕ) (he0 : 0 < e 0)
    (henn : ∀ v, 0 ≤ e v) (l : List ℚ) (h2 : 2 ≤ l.length) :
    ∃ i, i < (nextProbs e T top_k ((l.map some).set 1 none)).length
      ∧ 0 < (nextProbs e T top_k ((l.map some).set 1 none)).getD i 0 := by
  have h0s : 0 < ((l.map some).set 1 none).length := by
    simp only [List.length_set, List.length_map]
    omega
  have h0t : 0 < (tempScaled T ((l.map some).set 1 none)).length := by
    rw [tempScaled_length]; exact h0s
  have h0l : 0 < l.length := by omega
  have hxt0 : (tempScaled T ((l.map some).set 1 none))[0]
      = some (l[0] / T) := by
    simp only [tempScaled, List.getElem_map, List.getElem_set_ne (show (1 : ℕ) ≠ 0 by omega),
      List.getElem_map]
    rfl
  have hfv0 : l[0] / T ∈ finVals (tempScaled T ((l.map some).set 1 none)) :=
    finVals_mem_of_getElem _ 0 h0t _ hxt0
  have hfvne : finVals (tempScaled T ((l.map some).set 1 none)) ≠ [] :=
    List.ne_nil_of_mem hfv0
  have hm0mem : listMax (finVals (tempScaled T ((l.map some).set 1 none)))
      ∈ finVals (tempScaled T ((l.map some).set 1 none)) := listMax_mem _ hfvne
  have hsome : some (listMax (finVals (tempScaled T ((l.map some).set 1 none))))
      ∈ tempScaled T ((l.map some).set 1 none) := by
    rcases List.mem_filterMap.1 hm0mem with ⟨a, ha, haeq⟩
    simp only [id_eq] at haeq
    rwa [← haeq]
  obtain ⟨jst, hjst, hjeq⟩ := List.getElem_of_mem hsome
  rw [nextProbs]
  by_cases hk : 0 < top_k
  · rw [if_pos hk]
    have hjf : jst < (topkFilter top_k (tempScaled T ((l.map some).set 1 none))).length := by
      rw [topkFilter_length]; exact hjst
    have hsurv : (topkFilter top_k (tempScaled T ((l.map some).set 1 none)))[jst]
        = some (listMax (finVals (tempScaled T ((l.map some).set 1 none)))) := by
      simp only [topkFilter, List.getElem_map, hjeq]
      rw [if_neg]
      exact not_xlt_max_kthLargest _ top_k _ (fun w hw => le_listMax _ _ hw)
    have hm0' : listMax (finVals (tempScaled T ((l.map some).set 1 none)))
        ∈ finVals (topkFilter top_k (tempScaled T ((l.map some).set 1 none))) :=
      finVals_mem_of_getElem _ jst hjf _ hsurv
    have hmax_eq : listMax (finVals (topkFilter top_k (tempScaled T ((l.map some).set 1 none))))
        = listMax (finVals (tempScaled T ((l.map some).set 1 none))) := by
      apply le_antisymm
      · exact le_listMax _ _ (finVals_topkFilter_subset top_k _ _
          (listMax_mem _ (List.ne_nil_of_mem hm0')))
      · exact le_listMax _ _ hm0'
    obtain ⟨hl', hp'⟩ := softmaxT_pos_at e he0 henn _ jst hjf (by rw [hsurv, hmax_eq])
    exact ⟨jst, hl', hp'⟩
  · rw [if_neg hk]
    obtain ⟨hl', hp'⟩ := softmaxT_pos_at e he0 henn _ jst hjst hjeq
    exact ⟨jst, hl', hp'⟩

theorem genTextStep_ne_unk (e : ℚ → ℚ) (modelLast : List ℕ → List ℚ)
    (pick : ℕ → List ℚ → ℕ) (T : ℚ) (top_k : ℕ) (V : ℕ) (he0 : 0 < e 0)
    (henn : ∀ v, 0 ≤ e v)
    (hlen : ∀ ids, (modelLast ids).length = V) (hV : 2 ≤ V)
    (hpick : ∀ (n : ℕ) (ps : List ℚ), (∃ i, i < ps.length ∧ 0 < ps.getD i 0) → 0 < ps.getD (pick n ps) 0)
    (n : ℕ) (ids : List ℕ) :
    genTextStep e modelLast pick T top_k n ids ≠ 1 := by
  intro hcontra
  have h2 : 2 ≤ (modelLast ids).length := by rw [hlen]; exact hV
  have hex := nextProbs_exists_pos e T top_k he0 henn (modelLast ids) h2
  have hp := hpick n _ hex
  rw [genTextStep] at hcontra
  rw [hcontra] at hp
  rw [nextProbs_unk_zero e T top_k (modelLast ids) (by omega)] at hp
  exact lt_irrefl 0 hp

theorem genTextLoop_eq_append (e : ℚ → ℚ) (modelLast : List ℕ → List ℚ)
    (pick : ℕ → List ℚ → ℕ) (T : ℚ) (top_k : ℕ) :
    ∀ (fuel : ℕ) (ids : List ℕ),
      ∃ tl, genTextLoop e modelLast pick T top_k fuel ids = ids ++ tl := by
  intro fuel
  induction fuel with
  | zero => intro ids; exact ⟨[], by simp [genTextLoop]⟩
  | succ fuel ih =>
    intro ids
    obtain ⟨tl, htl⟩ := ih (ids ++ [genTextStep e modelLast pick T top_k fuel ids])
    rw [genTextLoop]
    exact ⟨[genTextStep e modelLast pick T top_k fuel ids] ++ tl, by rw [htl, List.append_assoc]⟩

/-- C5 (amended): in the `lambda_handler` loop of `generate_text/main.py`,
every iteration suppresses the UNK logit (id 1) to `-inf` before
temperature scaling, top-k filtering and sampling, so — for any exponential
model that is nonnegative with `e 0 > 0` (true of float32 `exp`, even
with underflow), any model with a fixed finite logit width of
at least 2, and any sampler that only returns indices of positive
probability (the contract of `torch.multinomial`) — the generated
continuation never contains the UNK token. (`SimpleTransformer.generate`
performs no such suppression and can emit UNK.) -/
theorem handler_never_emits_unk (e : ℚ → ℚ) (modelLast : List ℕ → List ℚ)
    (pick : ℕ → List ℚ → ℕ) (T : ℚ) (top_k : ℕ) (V : ℕ) (he0 : 0 < e 0)
    (henn : ∀ v, 0 ≤ e v)
    (hlen : ∀ ids, (modelLast ids).length = V) (hV : 2 ≤ V)
    (hpick : ∀ (n : ℕ) (ps : List ℚ), (∃ i, i < ps.length ∧ 0 < ps.getD i 0) → 0 < ps.getD (pick n ps) 0)
    (fuel : ℕ) (ids : List ℕ) :
    1 ∉ (genTextLoop e modelLast pick T top_k fuel ids).drop ids.length := by
  induction fuel generalizing ids with
  | zero =>
    rw [genTextLoop, List.drop_length]
    exact List.not_mem_nil 1
  | succ fuel ih =>
    rw [genTextLoop]
    obtain ⟨tl, htl⟩ := genTextLoop_eq_append e modelLast pick T top_k fuel
      (ids ++ [genTextStep e modelLast pick T top_k fuel ids])
    rw [htl, List.append_assoc, List.drop_left]
    intro hmem
    rcases List.mem_append.1 hmem with hmem1 | hmem2
    · have hne := genTextStep_ne_unk e modelLast pick T top_k V he0 henn hlen hV hpick fuel ids
      simp only [List.mem_singleton] at hmem1
      exact hne hmem1.symm
    · have := ih (ids ++ [genTextStep e modelLast pick T top_k fuel ids])
      rw [htl, List.drop_left] at this
      exact this hmem2

/-- C5 witness for the amended statement: two iterations of the handler loop
with the UNK-favouring model `m2`, the underflow exponential and the
first-positive sampler never place the UNK id (1) in the continuation. -/
theorem handler_never_emits_unk_witness :
    1 ∉ (genTextLoop eF m2 pick1 1 0 2 [2]).drop 1 :=
  handler_never_emits_unk eF m2 pick1 1 0 2
    (by norm_num [eF])
    (fun v => by by_cases h : v ≤ -(10 ^ 8) <;> simp [eF, h])
    (fun _ => rfl) (le_refl 2) pick1_valid 2 [2]

/-- C5 counterexample: `SimpleTransformer.generate` applies no UNK
suppression, so its generation loop can emit the UNK token. With a
tokenizer supplied (EOS id 3), the model `m2` (UNK logit dominant), the
float-underflow exponential and the first-positive-probability sampler
(a valid `torch.multinomial` realization, see `pick1_valid`), the prompt
`[2]` generates continuation `[1]` — the UNK id. -/
theorem tf_generate_emits_unk :
    tfGenerate eF m2 pick1 1 0 (some 3) 1 [2] = [2, 1] := by
  have hxt : tempScaled 1 ((m2 [2]).map some) = [some (-(10 ^ 9)), some 10] := by
    simp [tempScaled, m2]
  have hprobs : nextProbs eF 1 0 ((m2 [2]).map some) = [0, 1] := by
    rw [nextProbs, if_neg (lt_irrefl 0), hxt]
    have hfv : finVals [some (-(10 ^ 9)), some (10 : ℚ)] = [-(10 ^ 9), 10] := by
      simp [finVals]
    have hmax : listMax [-(10 ^ 9), (10 : ℚ)] = 10 := by
      simp only [listMax, List.foldl_cons, List.foldl_nil]
      exact max_eq_right (by norm_num)
    simp only [softmaxT, hfv, hmax]
    norm_num [expWeight, eF]
  have hstep : tfStep eF m2 pick1 1 0 0 [2] = 1 := by
    rw [tfStep, hprobs]
    norm_num [pick1, firstPosIdx]
  have h1 : tfGenerate eF m2 pick1 1 0 (some 3) 1 [2]
      = if (some 3 : Option ℕ) = some (tfStep eF m2 pick1 1 0 0 [2])
        then [2] ++ [tfStep eF m2 pick1 1 0 0 [2]]
        else tfGenerate eF m2 pick1 1 0 (some 3) 0 ([2] ++ [tfStep eF m2 pick1 1 0 0 [2]]) :=
    rfl
  rw [h1, hstep, if_neg (by decide)]
  rfl

/-!
Vocabulary-construction lemmas (C8, C1).
-/

theorem mem_firstOccs (l : List (List Char)) (a : List Char) :
    a ∈ firstOccs l ↔ a ∈ l := by
  induction l with
  | nil => simp [firstOccs]
  | cons x xs ih =>
    rw [firstOccs]
    constructor
    · intro h
      rcases List.mem_cons.1 h with h1 | h1
      · exact h1 ▸ List.mem_cons_self x xs
      · exact List.mem_cons_of_mem x (ih.1 (List.mem_filter.1 h1).1)
    · intro h
      rcases List.mem_cons.1 h with h1 | h1
      · exact h1 ▸ List.mem_cons_self x _
      · by_cases hax : a = x
        · exact hax ▸ List.mem_cons_self x _
        · exact List.mem_cons_of_mem x
            (List.mem_filter.2 ⟨ih.2 h1, by simpa using hax⟩)

theorem firstOccs_nodup (l : List (List Char)) : (firstOccs l).Nodup := by
  induction l with
  | nil => exact List.nodup_nil
  | cons x xs ih =>
    rw [firstOccs]
    refine List.Nodup.cons ?_ (List.Nodup.filter _ ih)
    intro hmem
    have := (List.mem_filter.1 hmem).2
    simp at this

theorem countsOf_keys (l : List (List Char)) :
    (countsOf l).map Prod.fst = firstOccs l := by
  rw [countsOf, List.map_map]
  exact List.map_id _

theorem countsOf_pairwise_ne (l : List (List Char)) :
    List.Pairwise (fun p q : List Char × ℕ => p.1 ≠ q.1) (countsOf l) := by
  have h1 : ((countsOf l).map Prod.fst).Nodup := by
    rw [countsOf_keys]
    exact firstOccs_nodup l
  rw [List.Nodup, List.pairwise_map] at h1
  exact h1

theorem keptWords_pairwise_ne (vs : ℕ) (texts : List (List Char)) :
    List.Pairwise (fun p q : List Char × ℕ => p.1 ≠ q.1) (keptWords vs texts) := by
  have hperm := List.perm_insertionSort countGe (countsOf (allWordsOf texts))
  have hs : List.Pairwise (fun p q : List Char × ℕ => p.1 ≠ q.1)
      (List.insertionSort countGe (countsOf (allWordsOf texts))) :=
    (List.Perm.pairwise_iff (fun h => Ne.symm h) hperm).2 (countsOf_pairwise_ne _)
  exact List.Pairwise.sublist (List.take_sublist _ _) hs

theorem keptWords_mem (vs : ℕ) (texts : List (List Char)) (p : List Char × ℕ)
    (hp : p ∈ keptWords vs texts) :
    p.1 ∈ allWordsOf texts ∧ p.2 = (allWordsOf texts).count p.1 := by
  have h1 : p ∈ List.insertionSort countGe (countsOf (allWordsOf texts)) :=
    List.mem_of_mem_take hp
  have h2 : p ∈ countsOf (allWordsOf texts) :=
    (List.perm_insertionSort countGe _).subset h1
  rcases List.mem_map.1 h2 with ⟨w, hw, hweq⟩
  constructor
  · rw [← hweq]
    exact (mem_firstOccs _ _).1 hw
  · rw [← hweq]

theorem mem_flushTok (acc : List Char) (rest : List (List Char)) (w : List Char)
    (hw : w ∈ flushTok acc rest) : w = acc.reverse ∨ w ∈ rest := by
  rw [flushTok] at hw
  by_cases ha : acc = []
  · rw [if_pos ha] at hw
    exact Or.inr hw
  · rw [if_neg ha] at hw
    rcases List.mem_cons.1 hw with h | h
    · exact Or.inl h
    · exact Or.inr h

theorem tokenizeAux_shape (s : List Char) :
    ∀ (acc : List Char), (∀ c ∈ acc, isWordChar c = true) →
      ∀ w ∈ tokenizeAux s acc, (∀ c ∈ w, isWordChar c = true) ∨ w.length = 1 := by
  induction s with
  | nil =>
    intro acc hacc w hw
    rw [tokenizeAux] at hw
    rcases mem_flushTok acc [] w hw with h | h
    · left
      intro c hc
      exact hacc c (List.mem_reverse.1 (h ▸ hc))
    · cases h
  | cons c cs ih =>
    intro acc hacc w hw
    rw [tokenizeAux] at hw
    by_cases h1 : isWordChar c
    · rw [if_pos h1] at hw
      refine ih (c :: acc) ?_ w hw
      intro d hd
      rcases List.mem_cons.1 hd with h | h
      · exact h ▸ h1
      · exact hacc d h
    · rw [if_neg h1] at hw
      by_cases h2 : isSpaceChar c
      · rw [if_pos h2] at hw
        rcases mem_flushTok acc _ w hw with h | h
        · left
          intro d hd
          exact hacc d (List.mem_reverse.1 (h ▸ hd))
        · exact ih [] (by intro d hd; cases hd) w h
      · rw [if_neg h2] at hw
        rcases mem_flushTok acc _ w hw with h | h
        · left
          intro d hd
          exact hacc d (List.mem_reverse.1 (h ▸ hd))
        · rcases List.mem_cons.1 h with h3 | h3
          · right
            rw [h3]
            rfl
          · exact ih [] (by intro d hd; cases hd) w h3

theorem tokenize_ne_special (s : List Char) (w : List Char) (hw : w ∈ tokenizeChars s) :
    w ≠ padStr ∧ w ≠ unkStr ∧ w ≠ bosStr ∧ w ≠ eosStr := by
  have hshape := tokenizeAux_shape s [] (by intro c hc; cases hc) w hw
  have hgen : ∀ t : List Char, ('<' ∈ t) → t.length = 5 → w ≠ t := by
    intro t hlt hlen5 heq
    subst heq
    rcases hshape with h | h
    · have := h '<' hlt
      simp [isWordChar] at this
    · rw [h] at hlen5
      exact absurd hlen5 (by norm_num)
  exact ⟨hgen padStr (by decide) (by decide), hgen unkStr (by decide) (by decide),
    hgen bosStr (by decide) (by decide), hgen eosStr (by decide) (by decide)⟩

theorem allWords_ne_special (texts : List (List Char)) (w : List Char)
    (hw : w ∈ allWordsOf texts) :
    w ≠ padStr ∧ w ≠ unkStr ∧ w ≠ bosStr ∧ w ≠ eosStr := by
  rcases List.mem_flatten.1 hw with ⟨l, hl, hwl⟩
  rcases List.mem_map.1 hl with ⟨t, _, hteq⟩
  rw [← hteq] at hwl
  exact tokenize_ne_special (lowerStr t) w hwl

theorem specialW_lookup_none (w : List Char)
    (h : w ≠ padStr ∧ w ≠ unkStr ∧ w ≠ bosStr ∧ w ≠ eosStr) :
    lookupA specialW w = none := by
  obtain ⟨h1, h2, h3, h4⟩ := h
  have g1 : ¬(padStr = w) := fun hh => h1 (Eq.symm hh)
  have g2 : ¬(unkStr = w) := fun hh => h2 (Eq.symm hh)
  have g3 : ¬(bosStr = w) := fun hh => h3 (Eq.symm hh)
  have g4 : ¬(eosStr = w) := fun hh => h4 (Eq.symm hh)
  simp only [specialW, lookupA, if_neg g1, if_neg g2, if_neg g3, if_neg g4]

theorem foldl_buildStep_char :
    ∀ (wf : List (List Char × ℕ)) (d1 : List (List Char × ℕ)) (d2 : List (ℕ × List Char)),
      (∀ p ∈ wf, lookupA d1 p.1 = none) →
      List.Pairwise (fun p q : List Char × ℕ => p.1 ≠ q.1) wf →
      (∀ kv ∈ d2, kv.1 < d1.length) →
      (wf.foldl buildStep (d1, d2)).1 = d1 ++ assignW d1.length wf
      ∧ (wf.foldl buildStep (d1, d2)).2 = d2 ++ assignI d1.length wf := by
  intro wf
  induction wf with
  | nil =>
    intro d1 d2 _ _ _
    simp [assignW, assignI]
  | cons p ps ih =>
    intro d1 d2 hnone hpw hbound
    have hd2none : lookupA d2 d1.length = none := by
      rw [lookupA_eq_none_iff]
      intro kv hkv
      exact Nat.ne_of_lt (hbound kv hkv)
    have hstep : buildStep (d1, d2) p = (d1 ++ [(p.1, d1.length)], d2 ++ [(d1.length, p.1)]) := by
      rw [buildStep]
      rw [dictSet_notmem d1 p.1 d1.length (hnone p (List.mem_cons_self p ps)),
        dictSet_notmem d2 d1.length p.1 hd2none]
    rw [List.foldl_cons, hstep]
    have hlen1 : (d1 ++ [(p.1, d1.length)]).length = d1.length + 1 := by simp
    have hnone' : ∀ q ∈ ps, lookupA (d1 ++ [(p.1, d1.length)]) q.1 = none := by
      intro q hq
      rw [lookupA_append_none d1 _ _ (hnone q (List.mem_cons_of_mem p hq))]
      have hne : ¬(p.1 = q.1) := (List.pairwise_cons.1 hpw).1 q hq
      simp [lookupA, hne]
    have hbound' : ∀ kv ∈ d2 ++ [(d1.length, p.1)],
        kv.1 < (d1 ++ [(p.1, d1.length)]).length := by
      intro kv hkv
      rw [hlen1]
      rcases List.mem_append.1 hkv with h | h
      · exact Nat.lt_succ_of_lt (hbound kv h)
      · rw [List.mem_singleton.1 h]
        omega
    obtain ⟨e1, e2⟩ := ih (d1 ++ [(p.1, d1.length)]) (d2 ++ [(d1.length, p.1)]) hnone'
      (List.pairwise_cons.1 hpw).2 hbound'
    rw [e1, e2, hlen1]
    constructor
    · rw [List.append_assoc, assignW]
      rfl
    · rw [List.append_assoc, assignI]
      rfl

theorem build_vocab_dicts (vs : ℕ) (texts : List (List Char)) :
    (SimpleTokenizer.build_vocab vs texts).word_to_idx
      = specialW ++ assignW 4 (keptWords vs texts)
    ∧ (SimpleTokenizer.build_vocab vs texts).idx_to_word
      = specialI ++ assignI 4 (keptWords vs texts) := by
  have hnone : ∀ p ∈ keptWords vs texts, lookupA specialW p.1 = none := by
    intro p hp
    exact specialW_lookup_none p.1
      (allWords_ne_special texts p.1 (keptWords_mem vs texts p hp).1)
  have hb := foldl_buildStep_char (keptWords vs texts) specialW specialI hnone
    (keptWords_pairwise_ne vs texts) (by decide)
  constructor
  · show ((keptWords vs texts).foldl buildStep (specialW, specialI)).1 = _
    rw [hb.1]
    rfl
  · show ((keptWords vs texts).foldl buildStep (specialW, specialI)).2 = _
    rw [hb.2]
    rfl

theorem assignW_lookup :
    ∀ (wf : List (List Char × ℕ)) (n i : ℕ),
      List.Pairwise (fun p q : List Char × ℕ => p.1 ≠ q.1) wf →
      i < wf.length →
      lookupA (assignW n wf) ((wf.getD i ([], 0)).1) = some (n + i) := by
  intro wf
  induction wf with
  | nil =>
    intro n i _ hi
    simp at hi
  | cons p ps ih =>
    intro n i hpw hi
    cases i with
    | zero =>
      rw [List.getD_cons_zero, assignW, lookupA, if_pos rfl, Nat.add_zero]
    | succ i' =>
      have hi' : i' < ps.length := by
        simp only [List.length_cons] at hi
        omega
      rw [List.getD_cons_succ, assignW, lookupA, if_neg ?hne]
      case hne =>
        have hmem : ps.getD i' ([], 0) ∈ ps := by
          rw [List.getD_eq_getElem _ _ hi']
          exact List.getElem_mem _
        exact (List.pairwise_cons.1 hpw).1 _ hmem
      rw [ih (n + 1) i' (List.pairwise_cons.1 hpw).2 hi']
      congr 1
      omega

theorem assignI_lookup :
    ∀ (wf : List (List Char × ℕ)) (n i : ℕ), i < wf.length →
      lookupA (assignI n wf) (n + i) = some ((wf.getD i ([], 0)).1) := by
  intro wf
  induction wf with
  | nil =>
    intro n i hi
    simp at hi
  | cons p ps ih =>
    intro n i hi
    cases i with
    | zero =>
      rw [List.getD_cons_zero, Nat.add_zero, assignI, lookupA, if_pos rfl]
    | succ i' =>
      have hi' : i' < ps.length := by
        simp only [List.length_cons] at hi
        omega
      rw [List.getD_cons_succ, assignI, lookupA, if_neg (by omega),
        show n + (i' + 1) = (n + 1) + i' by omega]
      exact ih (n + 1) i' hi'

theorem assignW_lookup_inv :
    ∀ (wf : List (List Char × ℕ)) (n : ℕ) (w : List Char) (idx : ℕ),
      lookupA (assignW n wf) w = some idx →
      n ≤ idx ∧ idx < n + wf.length ∧ lookupA (assignI n wf) idx = some w := by
  intro wf
  induction wf with
  | nil =>
    intro n w idx h
    simp [assignW, lookupA] at h
  | cons p ps ih =>
    intro n w idx h
    rw [assignW, lookupA] at h
    by_cases hk : p.1 = w
    · rw [if_pos hk] at h
      have hidx : n = idx := by
        injection h
      refine ⟨hidx ▸ le_refl n, ?_, ?_⟩
      · simp only [List.length_cons]
        omega
      · rw [assignI, lookupA, if_pos hidx, Option.some_inj]
        exact hk
    · rw [if_neg hk] at h
      obtain ⟨hb1, hb2, hb3⟩ := ih (n + 1) w idx h
      refine ⟨by omega, ?_, ?_⟩
      · simp only [List.length_cons]
        omega
      · rw [assignI, lookupA, if_neg (by omega)]
        exact hb3

theorem keptWords_eq_take (vs : ℕ) (texts : List (List Char)) :
    keptWords vs texts
      = (List.insertionSort countGe (countsOf (allWordsOf texts))).take (vs - 4) := rfl

theorem keptWords_length (vs : ℕ) (texts : List (List Char)) :
    (keptWords vs texts).length = min (vs - 4) (countsOf (allWordsOf texts)).length := by
  rw [keptWords_eq_take, List.length_take,
    (List.perm_insertionSort countGe (countsOf (allWordsOf texts))).length_eq]

theorem keptWords_pairwise_countGe (vs : ℕ) (texts : List (List Char)) :
    List.Pairwise countGe (keptWords vs texts) := by
  rw [keptWords_eq_take]
  exact List.Pairwise.sublist (List.take_sublist _ _)
    (List.sorted_insertionSort countGe (countsOf (allWordsOf texts)))

theorem keptWords_desc (vs : ℕ) (texts : List (List Char)) (i j : ℕ) (hij : i ≤ j)
    (hj : j < (keptWords vs texts).length) :
    ((keptWords vs texts).getD j ([], 0)).2 ≤ ((keptWords vs texts).getD i ([], 0)).2 := by
  have hi : i < (keptWords vs texts).length := by omega
  rw [List.getD_eq_getElem _ _ hi, List.getD_eq_getElem _ _ hj]
  rcases Nat.lt_or_ge i j with hlt | hge
  · have hrel := List.pairwise_iff_get.1 (keptWords_pairwise_countGe vs texts)
      ⟨i, hi⟩ ⟨j, hj⟩ hlt
    rw [List.get_eq_getElem, List.get_eq_getElem] at hrel
    exact hrel
  · have : i = j := by omega
    subst this
    exact le_refl _

theorem keptWords_top (vs : ℕ) (texts : List (List Char)) (w : List Char)
    (hw : w ∈ allWordsOf texts)
    (hnot : ∀ p ∈ keptWords vs texts, p.1 ≠ w) :
    ∀ p ∈ keptWords vs texts, (allWordsOf texts).count w ≤ p.2 := by
  intro p hp
  have hwc : (w, (allWordsOf texts).count w) ∈ countsOf (allWordsOf texts) :=
    List.mem_map.2 ⟨w, (mem_firstOccs _ _).2 hw, rfl⟩
  have hws : (w, (allWordsOf texts).count w)
      ∈ List.insertionSort countGe (countsOf (allWordsOf texts)) :=
    (List.perm_insertionSort countGe _).symm.subset hwc
  obtain ⟨iw, hiw, hiweq⟩ := List.getElem_of_mem hws
  obtain ⟨ip, hip, hipeq⟩ := List.getElem_of_mem hp
  obtain ⟨hipA, hipB⟩ : ip < vs - 4
      ∧ ip < (List.insertionSort countGe (countsOf (allWordsOf texts))).length := by
    rw [keptWords_eq_take, List.length_take] at hip
    exact lt_min_iff.1 hip
  have hipeq' : (List.insertionSort countGe (countsOf (allWordsOf texts)))[ip]
      = p := by
    have h := hipeq
    simp only [keptWords_eq_take] at h
    rw [List.getElem_take] at h
    exact h
  have hk_le_iw : ¬ iw < vs - 4 := by
    intro hlt
    have hkel : iw < (keptWords vs texts).length := by
      rw [keptWords_length]
      have hcl : iw < (countsOf (allWordsOf texts)).length := by
        rw [← (List.perm_insertionSort countGe (countsOf (allWordsOf texts))).length_eq]
        exact hiw
      exact lt_min hlt hcl
    have hget : (keptWords vs texts)[iw]
        = (List.insertionSort countGe (countsOf (allWordsOf texts)))[iw] := by
      simp only [keptWords_eq_take]
      exact List.getElem_take _
    have hmem : (w, (allWordsOf texts).count w) ∈ keptWords vs texts := by
      rw [← hiweq, ← hget]
      exact List.getElem_mem hkel
    exact hnot _ hmem rfl
  have hlt2 : ip < iw := by omega
  have hsort : List.Sorted countGe (List.insertionSort countGe (countsOf (allWordsOf texts))) :=
    List.sorted_insertionSort countGe _
  have hrel := List.pairwise_iff_get.1 hsort ⟨ip, hipB⟩ ⟨iw, hiw⟩ hlt2
  rw [List.get_eq_getElem, List.get_eq_getElem, hipeq', hiweq] at hrel
  exact hrel

/-- C8: `build_vocab` tokenizes the texts lowercased with the regex split,
counts token frequencies, keeps the top `vocab_size - 4` most frequent
tokens (all kept words occur in the corpus with their exact counts; any
word left out has a count no larger than every kept one), and assigns them
consecutive ids 4, 5, … after the reserved ids PAD=0, UNK=1, BOS=2, EOS=3,
in descending frequency order (stable for ties, as `heapq.nlargest` is). -/
theorem build_vocab_spec (vs : ℕ) (texts : List (List Char)) :
    (lookupA (SimpleTokenizer.build_vocab vs texts).word_to_idx padStr = some 0
      ∧ lookupA (SimpleTokenizer.build_vocab vs texts).word_to_idx unkStr = some 1
      ∧ lookupA (SimpleTokenizer.build_vocab vs texts).word_to_idx bosStr = some 2
      ∧ lookupA (SimpleTokenizer.build_vocab vs texts).word_to_idx eosStr = some 3)
    ∧ (keptWords vs texts).length = min (vs - 4) (countsOf (allWordsOf texts)).length
    ∧ (∀ i, i < (keptWords vs texts).length →
        lookupA (SimpleTokenizer.build_vocab vs texts).word_to_idx
          ((keptWords vs texts).getD i ([], 0)).1 = some (4 + i))
    ∧ (∀ i j, i ≤ j → j < (keptWords vs texts).length →
        ((keptWords vs texts).getD j ([], 0)).2 ≤ ((keptWords vs texts).getD i ([], 0)).2)
    ∧ (∀ p ∈ keptWords vs texts,
        p.1 ∈ allWordsOf texts ∧ p.2 = (allWordsOf texts).count p.1)
    ∧ (∀ w, w ∈ allWordsOf texts → (∀ p ∈ keptWords vs texts, p.1 ≠ w) →
        ∀ p ∈ keptWords vs texts, (allWordsOf texts).count w ≤ p.2) := by
  obtain ⟨hw2i, _⟩ := build_vocab_dicts vs texts
  refine ⟨⟨?_, ?_, ?_, ?_⟩, keptWords_length vs texts, ?_,
    keptWords_desc vs texts, keptWords_mem vs texts, keptWords_top vs texts⟩
  · rw [hw2i]
    exact lookupA_append_left _ _ _ _ (by decide)
  · rw [hw2i]
    exact lookupA_append_left _ _ _ _ (by decide)
  · rw [hw2i]
    exact lookupA_append_left _ _ _ _ (by decide)
  · rw [hw2i]
    exact lookupA_append_left _ _ _ _ (by decide)
  · intro i hi
    rw [hw2i]
    have hmemp : (keptWords vs texts).getD i ([], 0) ∈ keptWords vs texts := by
      rw [List.getD_eq_getElem _ _ hi]
      exact List.getElem_mem hi
    have hspecnone : lookupA specialW ((keptWords vs texts).getD i ([], 0)).1 = none :=
      specialW_lookup_none _
        (allWords_ne_special texts _ (keptWords_mem vs texts _ hmemp).1)
    rw [lookupA_append_none _ _ _ hspecnone]
    exact assignW_lookup (keptWords vs texts) 4 i (keptWords_pairwise_ne vs texts) hi

/-- C8 witness: building from the single text `"b a b"`, the most frequent
word `b` receives the first free id 4. -/
theorem build_vocab_spec_witness :
    lookupA (SimpleTokenizer.build_vocab 10 ["b a b".toList]).word_to_idx
      "b".toList = some 4 := by
  have h4 := (build_vocab_spec 10 ["b a b".toList]).2.2.1 0 (by decide)
  have heq : ((keptWords 10 ["b a b".toList]).getD 0 ([], 0)).1 = "b".toList := by decide
  rw [heq] at h4
  exact h4

theorem build_vocab_inverse (vs : ℕ) (texts : List (List Char)) (w : List Char) (idx : ℕ)
    (hne : w ≠ padStr ∧ w ≠ unkStr ∧ w ≠ bosStr ∧ w ≠ eosStr)
    (hl : lookupA (SimpleTokenizer.build_vocab vs texts).word_to_idx w = some idx) :
    4 ≤ idx ∧ lookupA (SimpleTokenizer.build_vocab vs texts).idx_to_word idx = some w := by
  obtain ⟨hw2i, hi2w⟩ := build_vocab_dicts vs texts
  rw [hw2i, lookupA_append_none _ _ _ (specialW_lookup_none w hne)] at hl
  obtain ⟨hge, _, hinv⟩ := assignW_lookup_inv (keptWords vs texts) 4 w idx hl
  refine ⟨hge, ?_⟩
  rw [hi2w]
  have hspecnone : lookupA specialI idx = none := by
    have g0 : ¬((0 : ℕ) = idx) := by omega
    have g1 : ¬((1 : ℕ) = idx) := by omega
    have g2 : ¬((2 : ℕ) = idx) := by omega
    have g3 : ¬((3 : ℕ) = idx) := by omega
    simp only [specialI, lookupA, if_neg g0, if_neg g1, if_neg g2, if_neg g3]
  rw [lookupA_append_none _ _ _ hspecnone]
  exact hinv

/-- C1 counterexample: with the vocabulary built from `"hi !"`, every token
of the text `"hi!"` is in the vocabulary, yet decoding the encoding gives
`"hi !"` (tokens re-joined with single spaces), not the lowercased
original `"hi!"`. -/
theorem round_trip_not_lowercase_identity :
    ((tokenizeText "hi!".toList).all
        (fun w =>
          (lookupA (SimpleTokenizer.build_vocab 100 ["hi !".toList]).word_to_idx w).isSome)
      = true)
    ∧ (SimpleTokenizer.build_vocab 100 ["hi !".toList]).decode
        ((SimpleTokenizer.build_vocab 100 ["hi !".toList]).encode "hi!".toList true) true
      ≠ lowerStr "hi!".toList := by
  decide

/-- C1 (amended): for a vocabulary built by `build_vocab` and a text all of
whose tokens are in the vocabulary, decoding the encoding (with special
tokens added then skipped) returns the lowercased tokens joined by single
spaces; this equals the lowercasing of the text exactly when the
lowercased text already is its tokens joined by single spaces (no
punctuation adjacent to words, no repeated/leading/trailing whitespace). -/
theorem round_trip_after_lowercase (vs : ℕ) (texts : List (List Char)) (t : List Char)
    (h : ∀ w ∈ tokenizeText t,
      (lookupA (SimpleTokenizer.build_vocab vs texts).word_to_idx w).isSome = true) :
    (SimpleTokenizer.build_vocab vs texts).decode
        ((SimpleTokenizer.build_vocab vs texts).encode t true) true
      = spaceJoin (tokenizeText t)
    ∧ (spaceJoin (tokenizeText t) = lowerStr t →
        (SimpleTokenizer.build_vocab vs texts).decode
            ((SimpleTokenizer.build_vocab vs texts).encode t true) true = lowerStr t) := by
  have hkey : ∀ w ∈ tokenizeText t, ∃ idx,
      lookupA (SimpleTokenizer.build_vocab vs texts).word_to_idx w = some idx
        ∧ 4 ≤ idx
        ∧ lookupA (SimpleTokenizer.build_vocab vs texts).idx_to_word idx = some w := by
    intro w hw
    obtain ⟨idx, hidx⟩ := Option.isSome_iff_exists.1 (h w hw)
    obtain ⟨hge, hinv⟩ := build_vocab_inverse vs texts w idx
      (tokenize_ne_special (lowerStr t) w hw) hidx
    exact ⟨idx, hidx, hge, hinv⟩
  have henc : (SimpleTokenizer.build_vocab vs texts).encode t true
      = 2 :: (((tokenizeText t).map
          (fun w => (lookupA (SimpleTokenizer.build_vocab vs texts).word_to_idx w).getD 1))
        ++ [3]) := rfl
  have hdec : ∀ ids : List ℕ, (SimpleTokenizer.build_vocab vs texts).decode ids true
      = spaceJoin ((ids.filter (fun i => ¬(i = 0 ∨ i = 2 ∨ i = 3))).map
          (fun i =>
            (lookupA (SimpleTokenizer.build_vocab vs texts).idx_to_word i).getD unkStr)) :=
    fun _ => rfl
  have hmain : (SimpleTokenizer.build_vocab vs texts).decode
      ((SimpleTokenizer.build_vocab vs texts).encode t true) true
      = spaceJoin (tokenizeText t) := by
    rw [henc, hdec]
    rw [List.filter_cons_of_neg (by decide), List.filter_append,
      show ([3] : List ℕ).filter (fun i => ¬(i = 0 ∨ i = 2 ∨ i = 3)) = [] from by decide,
      List.append_nil]
    rw [List.filter_eq_self.2 ?hall]
    case hall =>
      intro a ha
      rcases List.mem_map.1 ha with ⟨w, hw, hweq⟩
      obtain ⟨idx, hidx, hge, _⟩ := hkey w hw
      rw [← hweq, hidx]
      simp only [Option.getD_some]
      simp only [decide_eq_true_eq]
      omega
    rw [List.map_map]
    congr 1
    have : ∀ w ∈ tokenizeText t,
        ((fun i => (lookupA (SimpleTokenizer.build_vocab vs texts).idx_to_word i).getD unkStr)
          ∘ fun w => (lookupA (SimpleTokenizer.build_vocab vs texts).word_to_idx w).getD 1) w
          = id w := by
      intro w hw
      obtain ⟨idx, hidx, _, hinv⟩ := hkey w hw
      simp only [Function.comp_apply, hidx, Option.getD_some, hinv, id_eq]
    rw [List.map_congr_left this, List.map_id]
  exact ⟨hmain, fun hsp => by rw [hmain, hsp]⟩

/-- C1 witness for the amended statement: `"hi"` (a single-spaced sequence
of word tokens, all in the vocabulary built from `"hi !"`) round-trips to
its lowercasing. -/
theorem round_trip_after_lowercase_witness :
    (SimpleTokenizer.build_vocab 100 ["hi !".toList]).decode
        ((SimpleTokenizer.build_vocab 100 ["hi !".toList]).encode "hi".toList true) true
      = lowerStr "hi".toList :=
  (round_trip_after_lowercase 100 ["hi !".toList] "hi".toList (by decide)).2 (by decide)
